import Mathlib

/-!
Shallow embedding of the block extractor and filename resolver of
generate_files.py (function save_java_files and its helpers).  Text is
modelled as List Char; the regular expressions of the source are modelled
by deterministic character scanners that follow the leftmost / lazy /
greedy semantics of each concrete pattern.  Word and whitespace character
classes are modelled over the ASCII range that all inputs of interest use.
Recursions that are not structural on the text carry a fuel argument equal
to the text length, which the lemmas below show is never exhausted.
-/

namespace GenFiles

/-- Backtick character, written via its code point. -/
def tick : Char := Char.ofNat 96

/-- The triple-backtick fence delimiter of fenced code blocks. -/
def fence : List Char := [tick, tick, tick]

/-- Whitespace stripped by Python str.strip and matched by the regex class \s. -/
def pySpace (c : Char) : Bool :=
  c == ' ' || c == '\t' || c == '\n' || c == '\r' || c == Char.ofNat 11 || c == Char.ofNat 12

/-- Python str.strip: remove leading and trailing whitespace. -/
def pyStripL (l : List Char) : List Char :=
  ((l.dropWhile pySpace).reverse.dropWhile pySpace).reverse

/-- Character class of the marker token: [A-Za-z0-9_./\\-]. -/
def clsChar (c : Char) : Bool :=
  c.isAlpha || c.isDigit || c == '_' || c == '.' || c == '/' || c == '\\' || c == '-'

/-- Case-insensitive match of the literal word File, per re.IGNORECASE. -/
def matchFileWord : List Char → Option (List Char)
  | c1 :: c2 :: c3 :: c4 :: rest =>
    if (c1 == 'F' || c1 == 'f') && (c2 == 'I' || c2 == 'i') &&
       (c3 == 'L' || c3 == 'l') && (c4 == 'E' || c4 == 'e')
    then some rest else none
  | _ => none

/-- One attempt, at a fixed position, of the marker regex
//\s*File\s*:\s*([A-Za-z0-9_./\\-]+) from source line 198; returns the
captured token.  All of its quantifiers are deterministic here because the
adjacent character classes are disjoint. -/
def matchMarkerAt : List Char → Option (List Char)
  | c1 :: c2 :: rest =>
    if c1 = '/' ∧ c2 = '/' then
      match matchFileWord (rest.dropWhile pySpace) with
      | some r2 =>
        match r2.dropWhile pySpace with
        | d :: r4 =>
          if d = ':' then
            let tok := (r4.dropWhile pySpace).takeWhile clsChar
            if tok = [] then none else some tok
          else none
        | [] => none
      | none => none
    else none
  | _ => none

/-- re.search of the marker pattern: the leftmost position at which the
marker regex matches. -/
def findMarker : List Char → Option (List Char)
  | [] => none
  | c :: rest =>
    match matchMarkerAt (c :: rest) with
    | some tok => some tok
    | none => findMarker rest

/-- Remove characters up to, but not including, the next newline; models
the lazy tail of //.*?$ under re.MULTILINE (the $ is zero width, so the
newline survives). -/
def dropToEol : List Char → List Char
  | [] => []
  | c :: rest => if c = '\n' then c :: rest else dropToEol rest

/-- Drop through the nearest block-comment terminator; models the lazy
tail of the alternative /\*.*?\*/ . -/
def dropBlockClose : List Char → Option (List Char)
  | [] => none
  | c :: rest =>
    if (c :: rest).take 2 = ['*', '/'] then some ((c :: rest).drop 2)
    else dropBlockClose rest

/-- Fuel-indexed engine of the comment-strip re.sub at source line 209:
at each position the line-comment alternative is tried first, then the
block-comment alternative (which fails when unterminated), and otherwise
the character is kept.  One unit of fuel per position suffices. -/
def scFuel : Nat → List Char → List Char
  | 0, l => l
  | _ + 1, [] => []
  | f + 1, c :: rest =>
    if (c :: rest).take 2 = ['/', '/'] then scFuel f (dropToEol ((c :: rest).drop 2))
    else if (c :: rest).take 2 = ['/', '*'] then
      match dropBlockClose ((c :: rest).drop 2) with
      | some r => scFuel f r
      | none => c :: scFuel f rest
    else c :: scFuel f rest

/-- The textual comment strip performed before the declaration scan. -/
def stripComments (l : List Char) : List Char := scFuel l.length l

/-- Word characters of \w and of the word-boundary test \b (ASCII). -/
def identChar (c : Char) : Bool := c.isAlphanum || c == '_'

/-- First character of an identifier: [A-Za-z_]. -/
def identStart (c : Char) : Bool := c.isAlpha || c == '_'

/-- The optional greedy group public\s+ of the declaration regex. -/
def dropPublicWs : List Char → Option (List Char)
  | 'p' :: 'u' :: 'b' :: 'l' :: 'i' :: 'c' :: rest =>
    match rest with
    | c :: _ => if pySpace c then some (rest.dropWhile pySpace) else none
    | [] => none
  | _ => none

/-- One of the four type keywords at the head of the list. -/
def kwSplit : List Char → Option (List Char)
  | 'c' :: 'l' :: 'a' :: 's' :: 's' :: rest => some rest
  | 'i' :: 'n' :: 't' :: 'e' :: 'r' :: 'f' :: 'a' :: 'c' :: 'e' :: rest => some rest
  | 'e' :: 'n' :: 'u' :: 'm' :: rest => some rest
  | 'r' :: 'e' :: 'c' :: 'o' :: 'r' :: 'd' :: rest => some rest
  | _ => none

/-- Keyword, mandatory whitespace, then the captured identifier
[A-Za-z_]\w* of the declaration regex at source lines 212-215. -/
def matchKwIdent (l : List Char) : Option (List Char) :=
  match kwSplit l with
  | none => none
  | some rest =>
    match rest with
    | c :: _ =>
      if pySpace c then
        match rest.dropWhile pySpace with
        | d :: rest2 => if identStart d then some (d :: rest2.takeWhile identChar) else none
        | [] => none
      else none
    | [] => none

/-- One attempt of the declaration regex at a fixed position.  The keyword
cannot start with the letter p, so the optional public group never needs
backtracking. -/
def matchDecl (l : List Char) : Option (List Char) :=
  match dropPublicWs l with
  | some r => matchKwIdent r
  | none => matchKwIdent l

/-- re.search of the declaration pattern; prevW records whether the
previous character is a word character, which decides the \b test at the
start of the pattern. -/
def findDecl : Bool → List Char → Option (List Char)
  | _, [] => none
  | prevW, c :: rest =>
    if prevW then findDecl (identChar c) rest
    else
      match matchDecl (c :: rest) with
      | some n => some n
      | none => findDecl (identChar c) rest

/-- Decimal digit to character. -/
def digitChar : Nat → Char
  | 0 => '0' | 1 => '1' | 2 => '2' | 3 => '3' | 4 => '4'
  | 5 => '5' | 6 => '6' | 7 => '7' | 8 => '8' | 9 => '9'
  | _ => '?'

/-- Fuel-indexed decimal rendering, modelling the formatting of the block
index inside the Python f-string.  Fuel n suffices for rendering n. -/
def nrFuel : Nat → Nat → List Char → List Char
  | 0, _, acc => acc
  | _ + 1, 0, acc => acc
  | f + 1, n + 1, acc => nrFuel f ((n + 1) / 10) (digitChar ((n + 1) % 10) :: acc)

/-- Decimal rendering of a natural number. -/
def natRepr (n : Nat) : List Char := if n = 0 then ['0'] else nrFuel n n []

/-- raw_name.lower().endswith applied to .java (source line 203);
endswith is the suffix test on the lowercased name. -/
def endsJava (l : List Char) : Bool := decide (".java".data <:+ l.map Char.toLower)

/-- posix os.path.basename: the final path segment after the last '/'. -/
def basename (l : List Char) : List Char :=
  (l.reverse.takeWhile (fun c => c != '/')).reverse

/-- Marker branch of save_java_files (lines 200-205): strip the captured
token, append .java when its lowercase form does not already end in .java,
and keep only the final path segment. -/
def markerResolve (tok : List Char) : List Char :=
  let raw := pyStripL tok
  basename (if endsJava raw then raw else raw ++ ".java".data)

/-- Filename resolution for one trimmed block (lines 196-222): the marker
first, then the declaration scan on the comment-stripped text, then the
Unknown fallback built from the run timestamp and the block index. -/
def resolveName (ts : List Char) (idx : Nat) (ob : List Char) : List Char :=
  match findMarker ob with
  | some tok => markerResolve tok
  | none =>
    match findDecl false (stripComments ob) with
    | some tyname => tyname ++ ".java".data
    | none => "Unknown_".data ++ ts ++ "_".data ++ natRepr idx ++ ".java".data

/-- Find the leftmost fence and return what follows it. -/
def dropToFence : List Char → Option (List Char)
  | [] => none
  | c :: rest =>
    if (c :: rest).take 3 = fence then some ((c :: rest).drop 3)
    else dropToFence rest

/-- Lazy search for the closing fence, also returning the body before it. -/
def takeToFence : List Char → Option (List Char × List Char)
  | [] => none
  | c :: rest =>
    if (c :: rest).take 3 = fence then some ([], (c :: rest).drop 3)
    else
      match takeToFence rest with
      | some (b, r) => some (c :: b, r)
      | none => none

/-- Exactly a case variant of the java language tag (re.IGNORECASE). -/
def isJavaCase : List Char → Bool
  | [c1, c2, c3, c4] =>
    (c1 == 'j' || c1 == 'J') && (c2 == 'a' || c2 == 'A') &&
    (c3 == 'v' || c3 == 'V') && (c4 == 'a' || c4 == 'A')
  | _ => false

/-- The greedy optional tag group (?:java)? after the opening fence. -/
def stripJava (l : List Char) : List Char := if isJavaCase (l.take 4) then l.drop 4 else l

/-- Fuel-indexed engine of the findall at source line 186: each opening
fence pairs with the nearest following closing fence, matches do not
overlap, and a fence with no later closing fence yields nothing. -/
def exFuel : Nat → List Char → List (List Char)
  | 0, _ => []
  | f + 1, s =>
    match dropToFence s with
    | none => []
    | some afterOpen =>
      match takeToFence (stripJava afterOpen) with
      | none => []
      | some (b, r) => b :: exFuel f r

/-- The block extractor at source line 186. -/
def extractBlocks (s : List Char) : List (List Char) := exFuel s.length s

/-- The sanitizer at source lines 79-81 (defined in the source but not
called from save_java_files). -/
def sanitize_filename (name : List Char) : List Char :=
  name.map (fun c => if c.isAlpha || c.isDigit || c == '_' then c else '_')

/-- Outcome of save_java_files: either the no-blocks warning path or the
ordered list of (filename, content) file writes. -/
inductive SaveOutcome
  | noBlocksWarning
  | wrote (files : List (List Char × List Char))
  deriving DecidableEq

/-- Per-block loop of save_java_files (lines 191-228): blocks are numbered
from 1, blocks that strip to nothing are skipped, the others are resolved
and written with a trailing newline. -/
def processBlocks (ts : List Char) : Nat → List (List Char) → List (List Char × List Char)
  | _, [] => []
  | idx, b :: rest =>
    let ob := pyStripL b
    if ob = [] then processBlocks ts (idx + 1) rest
    else (resolveName ts idx ob, pyStripL ob ++ ['\n']) :: processBlocks ts (idx + 1) rest

/-- save_java_files: extract the fenced blocks; warn when there are none,
otherwise perform the per-block writes. -/
def save_java_files (reply ts : List Char) : SaveOutcome :=
  let bs := extractBlocks reply
  if bs = [] then SaveOutcome.noBlocksWarning else SaveOutcome.wrote (processBlocks ts 1 bs)

/-- Backtick-freeness of a piece of text. -/
def noTick (l : List Char) : Bool := l.all (fun c => c != tick)

/-- The first character of the text is not a case variant of j (so the
optional tag group cannot fire on it). -/
def headNotJ : List Char → Bool
  | [] => true
  | c :: _ => !(c == 'j' || c == 'J')

/-- Numeric value of a decimal digit character. -/
def digitVal (c : Char) : Nat := c.toNat - 48

/-- Horner evaluation of a digit string. -/
def valOf (l : List Char) : Nat := l.foldl (fun a c => 10 * a + digitVal c) 0

/-- Layout of a reply text as a sequence of well-formed fenced segments
(plain text, opening fence, body, closing fence) followed by a tail. -/
def layout : List (List Char × List Char) → List Char → List Char
  | [], t => t
  | (p, b) :: rest, t => p ++ (fence ++ (b ++ (fence ++ layout rest t)))

/-! Length bounds of the scanners, showing the fuel is never exhausted. -/

theorem dropToEol_length_le (l : List Char) : (dropToEol l).length ≤ l.length := by
  induction l with
  | nil => simp [dropToEol]
  | cons c rest ih =>
    simp only [dropToEol]
    split
    · exact Nat.le_refl _
    · exact Nat.le_trans ih (by simp)

theorem dropBlockClose_length {l r : List Char} (h : dropBlockClose l = some r) :
    r.length + 2 ≤ l.length := by
  induction l with
  | nil => simp [dropBlockClose] at h
  | cons c rest ih =>
    simp only [dropBlockClose] at h
    split at h
    · rename_i hc
      injection h with h
      subst h
      have h2 : 2 ≤ rest.length + 1 := by
        have hlen := congrArg List.length hc
        simp [List.length_take] at hlen
        omega
      simp only [List.length_drop, List.length_cons]
      omega
    · have := ih h
      simp only [List.length_cons]
      omega

theorem dropToFence_length {l r : List Char} (h : dropToFence l = some r) :
    r.length + 3 ≤ l.length := by
  induction l with
  | nil => simp [dropToFence] at h
  | cons c rest ih =>
    simp only [dropToFence] at h
    split at h
    · rename_i hc
      injection h with h
      subst h
      have h2 : 3 ≤ rest.length + 1 := by
        have hlen := congrArg List.length hc
        simp [List.length_take, fence] at hlen
        omega
      simp only [List.length_drop, List.length_cons]
      omega
    · have := ih h
      simp only [List.length_cons]
      omega

theorem takeToFence_length {l b r : List Char} (h : takeToFence l = some (b, r)) :
    r.length + 3 ≤ l.length := by
  induction l generalizing b with
  | nil => simp [takeToFence] at h
  | cons c rest ih =>
    simp only [takeToFence] at h
    split at h
    · rename_i hc
      injection h with h
      injection h with h1 h2
      subst h2
      have h3 : 3 ≤ rest.length + 1 := by
        have hlen := congrArg List.length hc
        simp [List.length_take, fence] at hlen
        omega
      simp only [List.length_drop, List.length_cons]
      omega
    · cases htf : takeToFence rest with
      | none => rw [htf] at h; simp at h
      | some p =>
        obtain ⟨b', r'⟩ := p
        rw [htf] at h
        simp only [Option.some.injEq, Prod.mk.injEq] at h
        obtain ⟨h1, h2⟩ := h
        subst h2
        have := ih htf
        simp only [List.length_cons]
        omega

theorem stripJava_length (l : List Char) : (stripJava l).length ≤ l.length := by
  unfold stripJava
  split
  · simp [List.length_drop]
  · exact Nat.le_refl _

/-! Fuel irrelevance: with fuel at least the text length, the fuel-indexed
engines compute the functions they model. -/

theorem exFuel_nil : ∀ f, exFuel f [] = [] := by
  intro f
  cases f <;> rfl

theorem exFuel_irrel : ∀ f g l, l.length ≤ f → l.length ≤ g → exFuel f l = exFuel g l := by
  intro f
  induction f with
  | zero =>
    intro g l hf hg
    have : l = [] := List.length_eq_zero.mp (Nat.le_zero.mp hf)
    subst this
    rw [exFuel_nil, exFuel_nil]
  | succ f ih =>
    intro g l hf hg
    cases l with
    | nil => rw [exFuel_nil, exFuel_nil]
    | cons c rest =>
      cases g with
      | zero => simp [List.length_cons] at hg
      | succ g' =>
        simp only [List.length_cons] at hf hg
        cases hd : dropToFence (c :: rest) with
        | none => simp only [exFuel, hd]
        | some a =>
          simp only [exFuel, hd]
          cases ht : takeToFence (stripJava a) with
          | none => rfl
          | some p =>
            obtain ⟨b, r⟩ := p
            have h1 := dropToFence_length hd
            have h2 := takeToFence_length ht
            have h3 := stripJava_length a
            simp only [List.length_cons] at h1
            show b :: exFuel f r = b :: exFuel g' r
            congr 1
            apply ih
            · omega
            · omega

theorem extractBlocks_eq_nil {s : List Char} (h : dropToFence s = none) :
    extractBlocks s = [] := by
  cases s with
  | nil => rfl
  | cons c rest => simp only [extractBlocks, List.length_cons, exFuel, h]

theorem extractBlocks_noClose {s a : List Char} (hd : dropToFence s = some a)
    (ht : takeToFence (stripJava a) = none) : extractBlocks s = [] := by
  cases s with
  | nil => simp [dropToFence] at hd
  | cons c rest => simp only [extractBlocks, List.length_cons, exFuel, hd, ht]

theorem extractBlocks_cons {s a b r : List Char}
    (hd : dropToFence s = some a) (ht : takeToFence (stripJava a) = some (b, r)) :
    extractBlocks s = b :: extractBlocks r := by
  cases s with
  | nil => simp [dropToFence] at hd
  | cons c rest =>
    have h1 := dropToFence_length hd
    have h2 := takeToFence_length ht
    have h3 := stripJava_length a
    simp only [List.length_cons] at h1
    simp only [extractBlocks, List.length_cons, exFuel, hd, ht]
    congr 1
    apply exFuel_irrel
    · omega
    · exact Nat.le_refl _

theorem scFuel_nil : ∀ f, scFuel f [] = [] := by
  intro f
  cases f <;> rfl

theorem scFuel_irrel : ∀ f g l, l.length ≤ f → l.length ≤ g → scFuel f l = scFuel g l := by
  intro f
  induction f with
  | zero =>
    intro g l hf hg
    have : l = [] := List.length_eq_zero.mp (Nat.le_zero.mp hf)
    subst this
    rw [scFuel_nil, scFuel_nil]
  | succ f ih =>
    intro g l hf hg
    cases l with
    | nil => rw [scFuel_nil, scFuel_nil]
    | cons c rest =>
      cases g with
      | zero => simp [List.length_cons] at hg
      | succ g' =>
        simp only [List.length_cons] at hf hg
        simp only [scFuel]
        split
        · rename_i hcc
          have h2 : 2 ≤ rest.length + 1 := by
            have hlen := congrArg List.length hcc
            simp [List.length_take] at hlen
            omega
          have h3 := dropToEol_length_le ((c :: rest).drop 2)
          simp only [List.length_drop, List.length_cons] at h3
          apply ih
          · omega
          · omega
        · split
          · rename_i hcc
            cases hbc : dropBlockClose ((c :: rest).drop 2) with
            | none =>
              show c :: scFuel f rest = c :: scFuel g' rest
              congr 1
              apply ih
              · omega
              · omega
            | some r2 =>
              have h4 := dropBlockClose_length hbc
              simp only [List.length_drop, List.length_cons] at h4
              show scFuel f r2 = scFuel g' r2
              apply ih
              · omega
              · omega
          · show c :: scFuel f rest = c :: scFuel g' rest
            congr 1
            apply ih
            · omega
            · omega

theorem stripComments_line {l : List Char} (h : l.take 2 = ['/', '/']) :
    stripComments l = stripComments (dropToEol (l.drop 2)) := by
  cases l with
  | nil => simp at h
  | cons c rest =>
    have h2 : 2 ≤ rest.length + 1 := by
      have hlen := congrArg List.length h
      simp [List.length_take] at hlen
      omega
    have h3 := dropToEol_length_le ((c :: rest).drop 2)
    simp only [List.length_drop, List.length_cons] at h3
    simp only [stripComments, List.length_cons, scFuel]
    rw [if_pos h]
    apply scFuel_irrel
    · omega
    · exact Nat.le_refl _

theorem stripComments_block {l r : List Char} (h : l.take 2 = ['/', '*'])
    (hc : dropBlockClose (l.drop 2) = some r) :
    stripComments l = stripComments r := by
  cases l with
  | nil => simp at h
  | cons c rest =>
    have h4 := dropBlockClose_length hc
    simp only [List.length_drop, List.length_cons] at h4
    simp only [stripComments, List.length_cons, scFuel]
    rw [if_neg (by rw [h]; decide), if_pos h, hc]
    apply scFuel_irrel
    · omega
    · exact Nat.le_refl _

theorem stripComments_cons_nonslash {c : Char} {rest : List Char} (h : c ≠ '/') :
    stripComments (c :: rest) = c :: stripComments rest := by
  have hcond1 : ¬((c :: rest).take 2 = ['/', '/']) := by
    intro hh
    rw [List.take_succ_cons] at hh
    injection hh with hh1 hh2
    exact h hh1
  have hcond2 : ¬((c :: rest).take 2 = ['/', '*']) := by
    intro hh
    rw [List.take_succ_cons] at hh
    injection hh with hh1 hh2
    exact h hh1
  simp only [stripComments, List.length_cons, scFuel]
  rw [if_neg hcond1, if_neg hcond2]

/-! Facts about the fence scanners, for the extraction claims. -/

theorem take_fence_decomp {l : List Char} (h : l.take 3 = fence) :
    l = tick :: tick :: tick :: l.drop 3 := by
  conv_lhs => rw [← List.take_append_drop 3 l]
  rw [h]
  rfl

theorem dropToFence_eq_none {l : List Char} (h : ¬(fence <:+: l)) :
    dropToFence l = none := by
  induction l with
  | nil => rfl
  | cons c rest ih =>
    simp only [dropToFence]
    split
    · rename_i hc
      refine absurd ⟨[], (c :: rest).drop 3, ?_⟩ h
      rw [List.nil_append]
      exact (take_fence_decomp hc).symm
    · exact ih (fun hinf => h (List.infix_cons hinf))

theorem dropToFence_append {p r : List Char} (hp : noTick p = true) :
    dropToFence (p ++ (fence ++ r)) = some r := by
  induction p with
  | nil =>
    show dropToFence (tick :: tick :: tick :: r) = some r
    simp [dropToFence, fence]
  | cons a p' ih =>
    simp only [noTick, List.all_cons, Bool.and_eq_true, bne_iff_ne] at hp
    simp only [List.cons_append, dropToFence]
    rw [if_neg]
    · exact ih (by simp [noTick, hp.2])
    · intro hc
      have := take_fence_decomp hc
      injection this with h1 _
      exact hp.1 h1

theorem takeToFence_append {b r : List Char} (hb : noTick b = true) :
    takeToFence (b ++ (fence ++ r)) = some (b, r) := by
  induction b with
  | nil =>
    show takeToFence (tick :: tick :: tick :: r) = some ([], r)
    simp [takeToFence, fence]
  | cons a b' ih =>
    simp only [noTick, List.all_cons, Bool.and_eq_true, bne_iff_ne] at hb
    simp only [List.cons_append, takeToFence]
    rw [if_neg]
    · simp only [List.append_eq]
      rw [ih (by simp [noTick, hb.2])]
    · intro hc
      have := take_fence_decomp hc
      injection this with h1 _
      exact hb.1 h1

theorem takeToFence_none {l : List Char} (h : noTick l = true) :
    takeToFence l = none := by
  induction l with
  | nil => rfl
  | cons c rest ih =>
    simp only [noTick, List.all_cons, Bool.and_eq_true, bne_iff_ne] at h
    simp only [takeToFence]
    rw [if_neg, ih (by simp [noTick, h.2])]
    intro hc
    have := take_fence_decomp hc
    injection this with h1 _
    exact h.1 h1

theorem noTick_drop {l : List Char} (n : Nat) (h : noTick l = true) :
    noTick (l.drop n) = true := by
  simp only [noTick, List.all_eq_true] at h ⊢
  exact fun c hc => h c (List.drop_subset n l hc)

theorem stripJava_noTick {l : List Char} (h : noTick l = true) :
    noTick (stripJava l) = true := by
  unfold stripJava
  split
  · exact noTick_drop 4 h
  · exact h

theorem isJavaCase_head {c : Char} {x : List Char} (h : isJavaCase (c :: x) = true) :
    c = 'j' ∨ c = 'J' := by
  rcases x with _ | ⟨c2, x⟩
  · simp [isJavaCase] at h
  rcases x with _ | ⟨c3, x⟩
  · simp [isJavaCase] at h
  rcases x with _ | ⟨c4, x⟩
  · simp [isJavaCase] at h
  rcases x with _ | ⟨c5, x⟩
  · simp only [isJavaCase, Bool.and_eq_true, Bool.or_eq_true, beq_iff_eq] at h
    exact h.1.1.1
  · simp [isJavaCase] at h

theorem stripJava_id {l : List Char} (h : headNotJ l = true) : stripJava l = l := by
  unfold stripJava
  split
  · rename_i hj
    exfalso
    cases l with
    | nil => simp [isJavaCase] at hj
    | cons c rest =>
      rw [List.take_succ_cons] at hj
      have := isJavaCase_head hj
      simp only [headNotJ, Bool.not_eq_true', Bool.or_eq_false_iff, beq_eq_false_iff_ne] at h
      rcases this with h1 | h1
      · exact h.1 h1
      · exact h.2 h1
  · rfl

theorem headNotJ_concat {b r : List Char} (hb : headNotJ b = true) :
    headNotJ (b ++ r) = true ∨ b = [] := by
  cases b with
  | nil => exact Or.inr rfl
  | cons c b' => exact Or.inl (by simpa [headNotJ] using hb)

/-! Facts about the marker search, used by the marker claims. -/

theorem matchMarkerAt_token {l tok : List Char} (h : matchMarkerAt l = some tok) :
    tok ≠ [] ∧ ∀ c ∈ tok, clsChar c = true := by
  cases l with
  | nil => simp [matchMarkerAt] at h
  | cons c1 l1 =>
    cases l1 with
    | nil => simp [matchMarkerAt] at h
    | cons c2 rest =>
      simp only [matchMarkerAt] at h
      split at h
      · cases hfw : matchFileWord (rest.dropWhile pySpace) with
        | none => rw [hfw] at h; simp at h
        | some r2 =>
          rw [hfw] at h
          dsimp only at h
          cases hdw : r2.dropWhile pySpace with
          | nil => rw [hdw] at h; simp at h
          | cons d r4 =>
            rw [hdw] at h
            dsimp only at h
            split at h
            · split at h
              · simp at h
              · rename_i hne
                injection h with h
                subst h
                refine ⟨hne, ?_⟩
                intro c hc
                exact List.mem_takeWhile_imp hc
            · simp at h
      · simp at h

theorem findMarker_token {l tok : List Char} (h : findMarker l = some tok) :
    tok ≠ [] ∧ ∀ c ∈ tok, clsChar c = true := by
  induction l with
  | nil => simp [findMarker] at h
  | cons c rest ih =>
    simp only [findMarker] at h
    cases hm : matchMarkerAt (c :: rest) with
    | some t =>
      rw [hm] at h
      dsimp only at h
      injection h with h
      subst h
      exact matchMarkerAt_token hm
    | none =>
      rw [hm] at h
      dsimp only at h
      exact ih h

theorem findMarker_append_none {x y : List Char} (h : findMarker (x ++ y) = none) :
    findMarker y = none := by
  induction x with
  | nil => exact h
  | cons a x' ih =>
    rw [List.cons_append] at h
    simp only [findMarker] at h
    cases hm : matchMarkerAt (a :: (x' ++ y)) with
    | some t => rw [hm] at h; simp at h
    | none =>
      rw [hm] at h
      dsimp only at h
      exact ih h

theorem pySpace_not_cls {c : Char} (h : pySpace c = true) : clsChar c = false := by
  simp only [pySpace, Bool.or_eq_true, beq_iff_eq, or_assoc] at h
  rcases h with h | h | h | h | h | h <;> subst h <;> decide

theorem dropWhile_eq_self_of {p : Char → Bool} {l : List Char}
    (h : ∀ c ∈ l, p c = false) : l.dropWhile p = l := by
  cases l with
  | nil => rfl
  | cons c rest =>
    rw [List.dropWhile_cons]
    simp [h c (List.mem_cons_self c rest)]

theorem pyStripL_eq_self {l : List Char} (h : ∀ c ∈ l, pySpace c = false) :
    pyStripL l = l := by
  unfold pyStripL
  rw [dropWhile_eq_self_of h]
  rw [dropWhile_eq_self_of (fun c hc => h c (List.mem_reverse.mp hc))]
  exact List.reverse_reverse l

theorem pyStripL_token {tok : List Char} (htok : ∀ c ∈ tok, clsChar c = true) :
    pyStripL tok = tok := by
  apply pyStripL_eq_self
  intro c hc
  cases hps : pySpace c
  · rfl
  · have := pySpace_not_cls hps
    rw [htok c hc] at this
    cases this

theorem basename_ne_nil {l : List Char} {c : Char} (h : l.getLast? = some c)
    (hc : c ≠ '/') : basename l ≠ [] := by
  unfold basename
  have hrev : l.reverse.head? = some c := by rw [List.head?_reverse]; exact h
  cases hr : l.reverse with
  | nil => rw [hr] at hrev; simp at hrev
  | cons a t =>
    rw [hr] at hrev
    simp only [List.head?_cons, Option.some.injEq] at hrev
    subst hrev
    have hpa : (a != '/') = true := by simp [bne_iff_ne, hc]
    rw [List.takeWhile_cons, hpa]
    simp

theorem endsJava_getLast {l : List Char} (h : endsJava l = true) :
    ∃ c, l.getLast? = some c ∧ Char.toLower c = 'a' := by
  simp only [endsJava, decide_eq_true_eq] at h
  obtain ⟨t, ht⟩ := h
  have hlast : (l.map Char.toLower).getLast? = some 'a' := by
    rw [← ht]
    rw [List.getLast?_append_of_ne_nil _ (by decide)]
    decide
  rw [List.getLast?_map] at hlast
  cases hl : l.getLast? with
  | none => rw [hl] at hlast; simp at hlast
  | some c =>
    rw [hl] at hlast
    simp only [Option.map_some', Option.some.injEq] at hlast
    exact ⟨c, rfl, hlast⟩

theorem markerResolve_ne_nil {tok : List Char} (htok : ∀ c ∈ tok, clsChar c = true) :
    markerResolve tok ≠ [] := by
  simp only [markerResolve]
  rw [pyStripL_token htok]
  split
  · rename_i hj
    obtain ⟨c, hc, hlow⟩ := endsJava_getLast hj
    refine basename_ne_nil hc ?_
    intro hslash
    subst hslash
    simp at hlow
  · apply basename_ne_nil (c := 'a')
    · rw [List.getLast?_append_of_ne_nil _ (by decide)]
      decide
    · decide

/-! Decimal rendering: correctness and injectivity. -/

theorem nrFuel_acc : ∀ f n acc, nrFuel f n acc = nrFuel f n [] ++ acc := by
  intro f
  induction f with
  | zero => intro n acc; rfl
  | succ f ih =>
    intro n acc
    cases n with
    | zero => rfl
    | succ m =>
      show nrFuel f ((m + 1) / 10) (digitChar ((m + 1) % 10) :: acc) =
        nrFuel f ((m + 1) / 10) (digitChar ((m + 1) % 10) :: []) ++ acc
      rw [ih ((m + 1) / 10) (digitChar ((m + 1) % 10) :: acc)]
      rw [ih ((m + 1) / 10) [digitChar ((m + 1) % 10)]]
      simp

theorem nrFuel_irrel : ∀ f g n acc, n ≤ f → n ≤ g → nrFuel f n acc = nrFuel g n acc := by
  intro f
  induction f with
  | zero =>
    intro g n acc hf hg
    have : n = 0 := Nat.le_zero.mp hf
    subst this
    cases g <;> rfl
  | succ f ih =>
    intro g n acc hf hg
    cases n with
    | zero => cases g <;> rfl
    | succ m =>
      cases g with
      | zero => omega
      | succ g' =>
        show nrFuel f ((m + 1) / 10) (digitChar ((m + 1) % 10) :: acc) =
          nrFuel g' ((m + 1) / 10) (digitChar ((m + 1) % 10) :: acc)
        have hq : (m + 1) / 10 < m + 1 := Nat.div_lt_self (Nat.succ_pos m) (by omega)
        apply ih
        · omega
        · omega

theorem valOf_append_digit (l : List Char) (c : Char) :
    valOf (l ++ [c]) = 10 * valOf l + digitVal c := by
  unfold valOf
  rw [List.foldl_append]
  rfl

theorem digitVal_digitChar {d : Nat} (h : d < 10) : digitVal (digitChar d) = d := by
  interval_cases d <;> decide

theorem digits_step {n : Nat} (h : n ≠ 0) :
    nrFuel n n [] = nrFuel (n / 10) (n / 10) [] ++ [digitChar (n % 10)] := by
  obtain ⟨m, rfl⟩ := Nat.exists_eq_succ_of_ne_zero h
  show nrFuel m ((m + 1) / 10) [digitChar ((m + 1) % 10)] = _
  rw [nrFuel_acc m ((m + 1) / 10) [digitChar ((m + 1) % 10)]]
  have hq : (m + 1) / 10 < m + 1 := Nat.div_lt_self (Nat.succ_pos m) (by omega)
  rw [nrFuel_irrel m ((m + 1) / 10) ((m + 1) / 10) [] (by omega) (Nat.le_refl _)]

theorem valOf_digits : ∀ n, valOf (nrFuel n n []) = n := by
  intro n
  induction n using Nat.strong_induction_on with
  | _ n ih =>
    cases hn : n with
    | zero => rfl
    | succ m =>
      subst hn
      rw [digits_step (Nat.succ_ne_zero m), valOf_append_digit]
      have hq : (m + 1) / 10 < m + 1 := Nat.div_lt_self (Nat.succ_pos m) (by omega)
      rw [ih ((m + 1) / 10) hq]
      rw [digitVal_digitChar (Nat.mod_lt _ (by omega))]
      omega

theorem natRepr_val (n : Nat) : valOf (natRepr n) = n := by
  unfold natRepr
  split
  · rename_i h
    subst h
    decide
  · exact valOf_digits n

theorem natRepr_inj {m n : Nat} (h : natRepr m = natRepr n) : m = n := by
  have := congrArg valOf h
  rwa [natRepr_val, natRepr_val] at this

/-! Remaining helpers for the comment-strip and layout reasoning. -/

theorem stripJava_tag {tag x : List Char} (h : isJavaCase tag = true) :
    stripJava (tag ++ x) = x := by
  rcases tag with _ | ⟨c1, tag⟩
  · simp [isJavaCase] at h
  rcases tag with _ | ⟨c2, tag⟩
  · simp [isJavaCase] at h
  rcases tag with _ | ⟨c3, tag⟩
  · simp [isJavaCase] at h
  rcases tag with _ | ⟨c4, tag⟩
  · simp [isJavaCase] at h
  rcases tag with _ | ⟨c5, tag⟩
  · unfold stripJava
    rw [show ([c1, c2, c3, c4] ++ x).take 4 = [c1, c2, c3, c4] from by simp]
    rw [if_pos h]
    simp
  · simp [isJavaCase] at h

theorem headNotJ_fence (r : List Char) : headNotJ (fence ++ r) = true := by
  show headNotJ (tick :: (tick :: tick :: r)) = true
  simp only [headNotJ]
  decide

theorem dropToEol_append {c r : List Char} (hc : '\n' ∉ c) :
    dropToEol (c ++ '\n' :: r) = '\n' :: r := by
  induction c with
  | nil => simp [dropToEol]
  | cons a c' ih =>
    rw [List.cons_append]
    simp only [dropToEol]
    rw [if_neg (fun hh : a = '\n' => hc (hh ▸ List.mem_cons_self a c'))]
    exact ih (fun hm => hc (List.mem_cons_of_mem a hm))

theorem dropBlockClose_append {d r : List Char} (hd : ¬(['*', '/'] <:+: d)) :
    dropBlockClose (d ++ '*' :: '/' :: r) = some r := by
  induction d with
  | nil =>
    show dropBlockClose ('*' :: '/' :: r) = some r
    simp [dropBlockClose]
  | cons a d' ih =>
    rw [List.cons_append]
    simp only [dropBlockClose]
    rw [if_neg]
    · exact ih (fun hinf => hd (List.infix_cons hinf))
    · intro hh
      rw [List.take_succ_cons] at hh
      injection hh with h1 h2
      subst h1
      cases d' with
      | nil => simp at h2
      | cons b d'' =>
        rw [List.cons_append, List.take_succ_cons] at h2
        injection h2 with h3 _
        subst h3
        exact hd ⟨[], d'', by simp⟩

theorem findDecl_newline (z : List Char) :
    findDecl false ('\n' :: z) = findDecl false z := rfl

theorem extract_layout (segs : List (List Char × List Char)) (tail : List Char)
    (hseg : ∀ pb ∈ segs, noTick pb.1 = true ∧ noTick pb.2 = true ∧ headNotJ pb.2 = true)
    (htail : extractBlocks tail = []) :
    extractBlocks (layout segs tail) = segs.map Prod.snd := by
  induction segs with
  | nil => simpa [layout] using htail
  | cons pb rest ih =>
    obtain ⟨p, b⟩ := pb
    obtain ⟨hp, hb, hj⟩ := hseg (p, b) (List.mem_cons_self _ _)
    have hd := dropToFence_append (p := p) (r := b ++ (fence ++ layout rest tail)) hp
    have hsj : stripJava (b ++ (fence ++ layout rest tail)) = b ++ (fence ++ layout rest tail) := by
      apply stripJava_id
      rcases headNotJ_concat (r := fence ++ layout rest tail) hj with h1 | h1
      · exact h1

      · subst h1
        rw [List.nil_append]
        exact headNotJ_fence _
    have ht := takeToFence_append (r := layout rest tail) hb
    have hmain := extractBlocks_cons hd (by rw [hsj]; exact ht)
    show extractBlocks (p ++ (fence ++ (b ++ (fence ++ layout rest tail)))) = _
    rw [hmain]
    simp only [List.map_cons]
    rw [ih (fun q hq => hseg q (List.mem_cons_of_mem _ hq))]

/-! The claims. -/

/-- C1 counterexample: the block containing the marker line with token
Foo.txt resolves to Foo.txt.java, not to Foo.txt as the claim states: the
code appends .java whenever the token does not already end in .java, even
when another extension is present. -/
theorem marker_extension_counterexample :
    resolveName "T".data 1 ("// File: Foo.txt\nclass Bar {}").data = "Foo.txt.java".data ∧
    "Foo.txt.java".data ≠ "Foo.txt".data := by
  constructor
  · decide
  · decide

/-- C1 amended: for every block with a filename marker, the token is used
with directory components stripped, and it is kept unchanged exactly when
it already ends in .java case-insensitively; otherwise .java is appended
after whatever extension it carries. -/
theorem marker_extension_amended (ob ts tok : List Char) (i : Nat)
    (h : findMarker ob = some tok) :
    (endsJava tok = true → resolveName ts i ob = basename tok) ∧
    (endsJava tok = false → resolveName ts i ob = basename (tok ++ ".java".data)) := by
  obtain ⟨hne, hcls⟩ := findMarker_token h
  unfold resolveName
  rw [h]
  simp only [markerResolve]
  rw [pyStripL_token hcls]
  constructor
  · intro hj
    rw [if_pos hj]
  · intro hj
    rw [if_neg (by simp [hj])]

/-- Witness for marker_extension_amended: a token already ending in .JAVA
is kept (directories stripped, no second extension appended). -/
theorem marker_extension_amended_witness :
    resolveName "T".data 1 ("// File: dir/Report.JAVA".data) = "Report.JAVA".data := by
  have h := (marker_extension_amended ("// File: dir/Report.JAVA".data) "T".data
    "dir/Report.JAVA".data 1 (by decide)).1 (by decide)
  rw [h]
  decide

/-- C2 counterexample: the marker-derived name a-b.java keeps its hyphen:
the resolver performs no sanitization to the letters, digits and
underscore set (the source defines the sanitizer but never calls it on
this path). -/
theorem marker_sanitize_counterexample :
    resolveName "T".data 1 ("// File: a-b".data) = "a-b.java".data ∧
    sanitize_filename "a-b.java".data ≠ "a-b.java".data := by
  constructor
  · decide
  · decide

/-- C2 amended: a matched marker always yields the marker-derived name
unsanitized, and that name is never empty (the captured token is nonempty
and the result always ends in a non-slash character), so resolution never
falls through from a matched marker to the declaration scan. -/
theorem marker_no_fallthrough (ob ts tok : List Char) (i : Nat)
    (h : findMarker ob = some tok) :
    resolveName ts i ob = markerResolve tok ∧ markerResolve tok ≠ [] := by
  obtain ⟨hne, hcls⟩ := findMarker_token h
  constructor
  · unfold resolveName
    rw [h]
  · exact markerResolve_ne_nil hcls

/-- Witness for marker_no_fallthrough at a concrete one-character token. -/
theorem marker_no_fallthrough_witness :
    resolveName "T".data 1 ("// File: x".data) = markerResolve "x".data ∧
    markerResolve "x".data ≠ [] :=
  marker_no_fallthrough _ _ _ _ (by decide)

/-- C3 counterexample: with a python language tag the extractor does not
exclude the tag from the body: the trimmed body of the only block is
python followed by the code, not the code alone. -/
theorem tag_excluded_counterexample :
    (extractBlocks ("```python\nx\n```").data).map pyStripL = ["python\nx".data] ∧
    "python\nx".data ≠ "x".data := by
  constructor
  · decide
  · decide

/-- A case variant of the java tag contains no backtick. -/
theorem isJavaCase_no_tick {l : List Char} (h : isJavaCase l = true) : tick ∉ l := by
  rcases l with _ | ⟨c1, l⟩
  · simp [isJavaCase] at h
  rcases l with _ | ⟨c2, l⟩
  · simp [isJavaCase] at h
  rcases l with _ | ⟨c3, l⟩
  · simp [isJavaCase] at h
  rcases l with _ | ⟨c4, l⟩
  · simp [isJavaCase] at h
  rcases l with _ | ⟨c5, l⟩
  · simp only [isJavaCase, Bool.and_eq_true, Bool.or_eq_true, beq_iff_eq] at h
    obtain ⟨⟨⟨h1, h2⟩, h3⟩, h4⟩ := h
    intro hmem
    simp only [List.mem_cons, List.not_mem_nil, or_false] at hmem
    rcases hmem with rfl | rfl | rfl | rfl
    · rcases h1 with h | h <;> exact absurd h (by decide)
    · rcases h2 with h | h <;> exact absurd h (by decide)
    · rcases h3 with h | h <;> exact absurd h (by decide)
    · rcases h4 with h | h <;> exact absurd h (by decide)
  · simp [isJavaCase] at h

/-- When less than four characters separate the opening fence from the
closing one, the four-character window after the opening fence reaches into
the closing fence and can never spell java. -/
theorem isJavaCase_window_false {mid post : List Char} (hlen : mid.length < 4) :
    isJavaCase ((mid ++ (fence ++ post)).take 4) = false := by
  cases hj : isJavaCase ((mid ++ (fence ++ post)).take 4)
  · rfl
  · exfalso
    apply isJavaCase_no_tick hj
    rw [List.take_append_eq_append_take]
    apply List.mem_append_right
    obtain ⟨m, hm⟩ : ∃ m, 4 - mid.length = m + 1 := ⟨4 - mid.length - 1, by omega⟩
    rw [hm, show fence ++ post = tick :: (tick :: tick :: post) from rfl,
      List.take_succ_cons]
    exact List.mem_cons_self _ _

/-- C3 amended: for every well-formed fence pair the extracted body is
exactly the text between the fences, except that its first four characters
are excluded when and only when they spell java case-insensitively (be it
the standalone java tag or the prefix of a longer tag such as javascript);
any other tag stays in the body.  The body is then trimmed. -/
theorem fence_pair_body (pre mid post : List Char)
    (hpre : noTick pre = true) (hmid : noTick mid = true) :
    (isJavaCase (mid.take 4) = true →
      extractBlocks (pre ++ (fence ++ (mid ++ (fence ++ post)))) =
        mid.drop 4 :: extractBlocks post ∧
      (extractBlocks (pre ++ (fence ++ (mid ++ (fence ++ post))))).map pyStripL =
        pyStripL (mid.drop 4) :: (extractBlocks post).map pyStripL) ∧
    (isJavaCase (mid.take 4) = false →
      extractBlocks (pre ++ (fence ++ (mid ++ (fence ++ post)))) =
        mid :: extractBlocks post ∧
      (extractBlocks (pre ++ (fence ++ (mid ++ (fence ++ post))))).map pyStripL =
        pyStripL mid :: (extractBlocks post).map pyStripL) := by
  have hd := dropToFence_append (p := pre) (r := mid ++ (fence ++ post)) hpre
  constructor
  · intro hj
    have hsj : stripJava (mid ++ (fence ++ post)) = mid.drop 4 ++ (fence ++ post) := by
      conv_lhs => rw [(List.take_append_drop 4 mid).symm]
      rw [List.append_assoc]
      exact stripJava_tag hj
    have ht : takeToFence (stripJava (mid ++ (fence ++ post))) = some (mid.drop 4, post) := by
      rw [hsj]
      exact takeToFence_append (noTick_drop 4 hmid)
    have hmain := extractBlocks_cons hd ht
    exact ⟨hmain, by rw [hmain]; rfl⟩
  · intro hj
    have hwin : isJavaCase ((mid ++ (fence ++ post)).take 4) = false := by
      by_cases hlen : 4 ≤ mid.length
      · rw [List.take_append_of_le_length hlen]
        exact hj
      · exact isJavaCase_window_false (by omega)
    have hsj : stripJava (mid ++ (fence ++ post)) = mid ++ (fence ++ post) := by
      simp [stripJava, hwin]
    have ht : takeToFence (stripJava (mid ++ (fence ++ post))) = some (mid, post) := by
      rw [hsj]
      exact takeToFence_append hmid
    have hmain := extractBlocks_cons hd ht
    exact ⟨hmain, by rw [hmain]; rfl⟩

/-- Witness for fence_pair_body on a javascript tag: the greedy optional
group consumes the java prefix and the body begins with script. -/
theorem fence_pair_body_witness :
    extractBlocks ("Before ".data ++ (fence ++
        ("javascript\nlet x = 1\n".data ++ (fence ++ " after".data)))) =
      "script\nlet x = 1\n".data :: extractBlocks " after".data :=
  ((fence_pair_body "Before ".data "javascript\nlet x = 1\n".data " after".data
    (by decide) (by decide)).1 (by decide)).1

/-- C4 counterexample: a double slash inside a string literal still starts
a textual line comment, consuming the rest of the line, so a declaration
on the same line after the literal is lost and the block falls back to the
Unknown name instead of Real.java. -/
theorem quote_opaque_counterexample :
    resolveName "T".data 1 ("String s = \"//\"; class Real {}").data = "Unknown_T_1.java".data ∧
    "Unknown_T_1.java".data ≠ "Real.java".data := by
  constructor
  · decide
  · decide

/-- C4 amended: the comment strip is purely textual and does consume
string-literal contents up to end of line; the two-line example of the
spec still resolves to Real.java only because the real declaration sits on
the following line. -/
theorem quote_example_resolution (ts : List Char) (i : Nat) :
    resolveName ts i ("String s = \"// class Fake\";\nclass Real {}").data = "Real.java".data := by
  rfl

/-- C5: when a block contains a filename marker, the marker alone
determines the resolved filename: the result is the marker resolution of
the captured token, independent of any declarations in the block and of
the timestamp and index. -/
theorem marker_precedence (ob ts ts' : List Char) (i i' : Nat) (tok : List Char)
    (h : findMarker ob = some tok) :
    resolveName ts i ob = markerResolve tok ∧
    resolveName ts i ob = resolveName ts' i' ob := by
  unfold resolveName
  rw [h]
  exact ⟨rfl, rfl⟩

/-- Witness for marker_precedence: a block with both a marker and a
declaration resolves through the marker, for any timestamp and index. -/
theorem marker_precedence_witness :
    resolveName "T1".data 1 ("// File: Main.java\nclass Other {}").data =
      markerResolve "Main.java".data ∧
    resolveName "T1".data 1 ("// File: Main.java\nclass Other {}").data =
      resolveName "T2".data 9 ("// File: Main.java\nclass Other {}").data :=
  marker_precedence _ _ _ _ _ _ (by decide)

/-- C6: comments are stripped before the declaration scan: prepending a
line comment (any text to a newline) or a closed block comment to a
marker-free block never changes the resolved filename. -/
theorem comment_stripped_scan (c d body ts : List Char) (i : Nat)
    (hc : '\n' ∉ c) (hd : ¬(['*', '/'] <:+: d)) :
    (findMarker ('/' :: '/' :: (c ++ '\n' :: body)) = none →
      resolveName ts i ('/' :: '/' :: (c ++ '\n' :: body)) = resolveName ts i body) ∧
    (findMarker ('/' :: '*' :: (d ++ '*' :: '/' :: body)) = none →
      resolveName ts i ('/' :: '*' :: (d ++ '*' :: '/' :: body)) = resolveName ts i body) := by
  constructor
  · intro hm
    have hmb : findMarker body = none := by
      apply findMarker_append_none (x := '/' :: '/' :: (c ++ ['\n']))
      rw [show ('/' :: '/' :: (c ++ ['\n'])) ++ body = '/' :: '/' :: (c ++ '\n' :: body) by simp]
      exact hm
    have hsc : stripComments ('/' :: '/' :: (c ++ '\n' :: body)) = '\n' :: stripComments body := by
      rw [stripComments_line (l := '/' :: '/' :: (c ++ '\n' :: body)) rfl]
      rw [show ('/' :: '/' :: (c ++ '\n' :: body)).drop 2 = c ++ '\n' :: body from rfl]
      rw [dropToEol_append hc]
      exact stripComments_cons_nonslash (by decide)
    unfold resolveName
    rw [hm, hmb]
    dsimp only
    rw [hsc, findDecl_newline]
  · intro hm
    have hmb : findMarker body = none := by
      apply findMarker_append_none (x := '/' :: '*' :: (d ++ ['*', '/']))
      rw [show ('/' :: '*' :: (d ++ ['*', '/'])) ++ body =
        '/' :: '*' :: (d ++ '*' :: '/' :: body) by simp]
      exact hm
    have hsc : stripComments ('/' :: '*' :: (d ++ '*' :: '/' :: body)) = stripComments body := by
      refine stripComments_block ?_ ?_
      · rfl
      · rw [show ('/' :: '*' :: (d ++ '*' :: '/' :: body)).drop 2 = d ++ '*' :: '/' :: body from rfl]
        exact dropBlockClose_append hd
    unfold resolveName
    rw [hm, hmb]
    dsimp only
    rw [hsc]

/-- Witness for comment_stripped_scan: the spec's example with a line
comment containing the word class still resolves to Calculator.java. -/
theorem comment_stripped_scan_witness :
    resolveName "T".data 1 ("// class Dummy\npublic class Calculator {}").data =
      "Calculator.java".data := by
  have h := (comment_stripped_scan " class Dummy".data "x".data
    "public class Calculator {}".data "T".data 1 (by decide) (by decide)).1 (by decide)
  rw [show ("// class Dummy\npublic class Calculator {}").data =
    '/' :: '/' :: (" class Dummy".data ++ '\n' :: "public class Calculator {}".data) by decide]
  rw [h]
  decide

/-- C7: a reply containing no fence at all takes the warning path: the
extractor returns the empty sequence and no per-block file write is
produced. -/
theorem no_blocks_warning (reply ts : List Char) (h : ¬(fence <:+: reply)) :
    save_java_files reply ts = SaveOutcome.noBlocksWarning ∧ extractBlocks reply = [] := by
  have he : extractBlocks reply = [] := extractBlocks_eq_nil (dropToFence_eq_none h)
  exact ⟨by simp [save_java_files, he], he⟩

/-- Witness for no_blocks_warning on a fence-free reply. -/
theorem no_blocks_warning_witness :
    save_java_files "plain text reply".data "T".data = SaveOutcome.noBlocksWarning ∧
    extractBlocks "plain text reply".data = [] :=
  no_blocks_warning _ _ (by decide)

/-- C8: a block with neither a marker nor a detected declaration resolves
to the fallback name Unknown_, timestamp, underscore, decimal index,
.java; and two such blocks of the same run with different indices always
receive distinct filenames. -/
theorem fallback_unknown_name (ts b b' : List Char) (i j : Nat)
    (h1 : findMarker b = none) (h2 : findDecl false (stripComments b) = none)
    (h1' : findMarker b' = none) (h2' : findDecl false (stripComments b') = none)
    (hij : i ≠ j) :
    resolveName ts i b = "Unknown_".data ++ ts ++ "_".data ++ natRepr i ++ ".java".data ∧
    resolveName ts i b ≠ resolveName ts j b' := by
  have e1 : resolveName ts i b =
      "Unknown_".data ++ ts ++ "_".data ++ natRepr i ++ ".java".data := by
    unfold resolveName
    rw [h1, h2]
  have e2 : resolveName ts j b' =
      "Unknown_".data ++ ts ++ "_".data ++ natRepr j ++ ".java".data := by
    unfold resolveName
    rw [h1', h2']
  refine ⟨e1, ?_⟩
  rw [e1, e2]
  intro heq
  apply hij
  simp only [List.append_assoc] at heq
  exact natRepr_inj (List.append_cancel_right
    (List.append_cancel_left (List.append_cancel_left (List.append_cancel_left heq))))

/-- Witness for fallback_unknown_name: two declaration-free blocks at
indices 1 and 2 of the same run get distinct Unknown names. -/
theorem fallback_unknown_name_witness :
    resolveName "TS".data 1 "no declarations".data =
      "Unknown_".data ++ "TS".data ++ "_".data ++ natRepr 1 ++ ".java".data ∧
    resolveName "TS".data 1 "no declarations".data ≠ resolveName "TS".data 2 "xyz".data :=
  fallback_unknown_name _ _ _ _ _ (by decide) (by decide) (by decide) (by decide) (by decide)

/-- C9: a final opening fence never closed before end of text yields no
block: the extractor returns exactly the bodies of the well-formed pairs,
and the result is the same with or without the dangling fence and its
tail. -/
theorem dangling_fence_no_block (segs : List (List Char × List Char)) (t : List Char)
    (hseg : ∀ pb ∈ segs, noTick pb.1 = true ∧ noTick pb.2 = true ∧ headNotJ pb.2 = true)
    (ht : noTick t = true) :
    extractBlocks (layout segs (fence ++ t)) = segs.map Prod.snd ∧
    extractBlocks (layout segs []) = segs.map Prod.snd := by
  constructor
  · apply extract_layout segs _ hseg
    have hd : dropToFence (fence ++ t) = some t := by
      have := dropToFence_append (p := []) (r := t) (by decide)
      simpa using this
    exact extractBlocks_noClose hd (takeToFence_none (stripJava_noTick ht))
  · exact extract_layout segs [] hseg (by decide)

/-- Witness for dangling_fence_no_block: one well-formed block followed by
a dangling fence extracts to exactly the one body. -/
theorem dangling_fence_no_block_witness :
    extractBlocks (layout [("A: ".data, "\ncode\n".data)] (fence ++ "java dangling".data)) =
      ["\ncode\n".data] :=
  (dangling_fence_no_block _ _ (by decide) (by decide)).1

/-- C10: a block that strips to nothing is skipped: no name is resolved
and no file is written for it, yet it still occupies its 1-based index, so
later blocks keep their positions counted over the skipped one. -/
theorem empty_block_skipped (ts b : List Char) (rest : List (List Char)) (i : Nat)
    (h : pyStripL b = []) :
    processBlocks ts i (b :: rest) = processBlocks ts (i + 1) rest := by
  simp [processBlocks, h]

/-- Witness for empty_block_skipped: a whitespace-only first block leaves
the second block with index 2. -/
theorem empty_block_skipped_witness :
    processBlocks "T".data 1 ("  \n ".data :: ["x".data]) = processBlocks "T".data 2 ["x".data] :=
  empty_block_skipped _ _ _ _ (by decide)

end GenFiles
